/-
Verification of the mention-handling pipeline of a Mastodon chat bot
(src/main.go): HTML text extraction, thread walking, mention rewriting,
response sanitization, prompt assembly and the per-mention orchestrator.
The Go code is embedded shallowly: strings become `String`/`List Char`,
the streaming/AI/HTTP collaborators become function parameters, and the
orchestrator's observable actions become an explicit effect trace.
-/
import Mathlib

/-!
## Response sanitizer (`cleanResponse`, src/main.go lines 200-219)

The Go code strips characters matched by the regex `[\p{So}\p{Sk}]`,
collapses runs of double spaces in a loop, rewrites spacing after
periods with three `strings.ReplaceAll` passes, and trims whitespace.
All string surgery is modelled on `List Char` (Go iterates runes here).
-/

/-- Code-point ranges of the Unicode general categories So and Sk,
used by the emoji-stripping regex `[\p{So}\p{Sk}]` in `cleanResponse`. -/
def soSkRanges : List (Nat × Nat) := [
  (0x5E, 0x5E), (0x60, 0x60), (0xA6, 0xA6), (0xA8, 0xA9), (0xAE, 0xB0),
  (0xB4, 0xB4), (0xB8, 0xB8), (0x2C2, 0x2C5), (0x2D2, 0x2DF), (0x2E5, 0x2EB),
  (0x2ED, 0x2ED), (0x2EF, 0x2FF), (0x375, 0x375), (0x384, 0x385), (0x482, 0x482),
  (0x58D, 0x58E), (0x60E, 0x60F), (0x6DE, 0x6DE), (0x6E9, 0x6E9), (0x6FD, 0x6FE),
  (0x7F6, 0x7F6), (0x888, 0x888), (0x9FA, 0x9FA), (0xB70, 0xB70), (0xBF3, 0xBF8),
  (0xBFA, 0xBFA), (0xC7F, 0xC7F), (0xD4F, 0xD4F), (0xD79, 0xD79), (0xF01, 0xF03),
  (0xF13, 0xF13), (0xF15, 0xF17), (0xF1A, 0xF1F), (0xF34, 0xF34), (0xF36, 0xF36),
  (0xF38, 0xF38), (0xFBE, 0xFC5), (0xFC7, 0xFCC), (0xFCE, 0xFCF), (0xFD5, 0xFD8),
  (0x109E, 0x109F), (0x1390, 0x1399), (0x166D, 0x166D), (0x1940, 0x1940), (0x19DE, 0x19FF),
  (0x1B61, 0x1B6A), (0x1B74, 0x1B7C), (0x1FBD, 0x1FBD), (0x1FBF, 0x1FC1), (0x1FCD, 0x1FCF),
  (0x1FDD, 0x1FDF), (0x1FED, 0x1FEF), (0x1FFD, 0x1FFE), (0x2100, 0x2101), (0x2103, 0x2106),
  (0x2108, 0x2109), (0x2114, 0x2114), (0x2116, 0x2117), (0x211E, 0x2123), (0x2125, 0x2125),
  (0x2127, 0x2127), (0x2129, 0x2129), (0x212E, 0x212E), (0x213A, 0x213B), (0x214A, 0x214A),
  (0x214C, 0x214D), (0x214F, 0x214F), (0x218A, 0x218B), (0x2195, 0x2199), (0x219C, 0x219F),
  (0x21A1, 0x21A2), (0x21A4, 0x21A5), (0x21A7, 0x21AD), (0x21AF, 0x21CD), (0x21D0, 0x21D1),
  (0x21D3, 0x21D3), (0x21D5, 0x21F3), (0x2300, 0x2307), (0x230C, 0x231F), (0x2322, 0x2328),
  (0x232B, 0x237B), (0x237D, 0x239A), (0x23B4, 0x23DB), (0x23E2, 0x2426), (0x2440, 0x244A),
  (0x249C, 0x24E9), (0x2500, 0x25B6), (0x25B8, 0x25C0), (0x25C2, 0x25F7), (0x2600, 0x266E),
  (0x2670, 0x2767), (0x2794, 0x27BF), (0x2800, 0x28FF), (0x2B00, 0x2B2F), (0x2B45, 0x2B46),
  (0x2B4D, 0x2B73), (0x2B76, 0x2B95), (0x2B97, 0x2BFF), (0x2CE5, 0x2CEA), (0x2E50, 0x2E51),
  (0x2E80, 0x2E99), (0x2E9B, 0x2EF3), (0x2F00, 0x2FD5), (0x2FF0, 0x2FFB), (0x3004, 0x3004),
  (0x3012, 0x3013), (0x3020, 0x3020), (0x3036, 0x3037), (0x303E, 0x303F), (0x309B, 0x309C),
  (0x3190, 0x3191), (0x3196, 0x319F), (0x31C0, 0x31E3), (0x3200, 0x321E), (0x322A, 0x3247),
  (0x3250, 0x3250), (0x3260, 0x327F), (0x328A, 0x32B0), (0x32C0, 0x33FF), (0x4DC0, 0x4DFF),
  (0xA490, 0xA4C6), (0xA700, 0xA716), (0xA720, 0xA721), (0xA789, 0xA78A), (0xA828, 0xA82B),
  (0xA836, 0xA837), (0xA839, 0xA839), (0xAA77, 0xAA79), (0xAB5B, 0xAB5B), (0xAB6A, 0xAB6B),
  (0xFBB2, 0xFBC2), (0xFD40, 0xFD4F), (0xFDCF, 0xFDCF), (0xFDFD, 0xFDFF), (0xFF3E, 0xFF3E),
  (0xFF40, 0xFF40), (0xFFE3, 0xFFE4), (0xFFE8, 0xFFE8), (0xFFED, 0xFFEE), (0xFFFC, 0xFFFD),
  (0x10137, 0x1013F), (0x10179, 0x10189), (0x1018C, 0x1018E), (0x10190, 0x1019C), (0x101A0, 0x101A0),
  (0x101D0, 0x101FC), (0x10877, 0x10878), (0x10AC8, 0x10AC8), (0x1173F, 0x1173F), (0x11FD5, 0x11FDC),
  (0x11FE1, 0x11FF1), (0x16B3C, 0x16B3F), (0x16B45, 0x16B45), (0x1BC9C, 0x1BC9C), (0x1CF50, 0x1CFC3),
  (0x1D000, 0x1D0F5), (0x1D100, 0x1D126), (0x1D129, 0x1D164), (0x1D16A, 0x1D16C), (0x1D183, 0x1D184),
  (0x1D18C, 0x1D1A9), (0x1D1AE, 0x1D1EA), (0x1D200, 0x1D241), (0x1D245, 0x1D245), (0x1D300, 0x1D356),
  (0x1D800, 0x1D9FF), (0x1DA37, 0x1DA3A), (0x1DA6D, 0x1DA74), (0x1DA76, 0x1DA83), (0x1DA85, 0x1DA86),
  (0x1E14F, 0x1E14F), (0x1ECAC, 0x1ECAC), (0x1ED2E, 0x1ED2E), (0x1F000, 0x1F02B), (0x1F030, 0x1F093),
  (0x1F0A0, 0x1F0AE), (0x1F0B1, 0x1F0BF), (0x1F0C1, 0x1F0CF), (0x1F0D1, 0x1F0F5), (0x1F10D, 0x1F1AD),
  (0x1F1E6, 0x1F202), (0x1F210, 0x1F23B), (0x1F240, 0x1F248), (0x1F250, 0x1F251), (0x1F260, 0x1F265),
  (0x1F300, 0x1F6D7), (0x1F6DD, 0x1F6EC), (0x1F6F0, 0x1F6FC), (0x1F700, 0x1F773), (0x1F780, 0x1F7D8),
  (0x1F7E0, 0x1F7EB), (0x1F7F0, 0x1F7F0), (0x1F800, 0x1F80B), (0x1F810, 0x1F847), (0x1F850, 0x1F859),
  (0x1F860, 0x1F887), (0x1F890, 0x1F8AD), (0x1F8B0, 0x1F8B1), (0x1F900, 0x1FA53), (0x1FA60, 0x1FA6D),
  (0x1FA70, 0x1FA74), (0x1FA78, 0x1FA7C), (0x1FA80, 0x1FA86), (0x1FA90, 0x1FAAC), (0x1FAB0, 0x1FABA),
  (0x1FAC0, 0x1FAC5), (0x1FAD0, 0x1FAD9), (0x1FAE0, 0x1FAE7), (0x1FAF0, 0x1FAF6), (0x1FB00, 0x1FB92),
  (0x1FB94, 0x1FBCA)]

/-- A character matched by the regex `[\p{So}\p{Sk}]`. -/
def isSymbolEmoji (c : Char) : Bool :=
  soSkRanges.any (fun p => decide (p.1 <= c.toNat) && decide (c.toNat <= p.2))

/-- One pass of `strings.ReplaceAll(response, "  ", " ")`: Go scans left to
right replacing non-overlapping occurrences, without rescanning the
replacement text. -/
def collapseOnce : List Char → List Char
  | [] => []
  | [c] => [c]
  | a :: b :: rest =>
    if a = ' ' /\ b = ' ' then ' ' :: collapseOnce rest
    else a :: collapseOnce (b :: rest)

/-- `strings.Contains(response, "  ")`. -/
def containsDoubleSpace : List Char → Bool
  | [] => false
  | [_] => false
  | a :: b :: rest => (decide (a = ' ') && decide (b = ' ')) || containsDoubleSpace (b :: rest)

/-- The `for strings.Contains(response, "  ") { ... }` loop of
`cleanResponse` with an explicit iteration bound: collapse double
spaces until none remain.  Each pass on a string that still contains a
double space strictly shrinks it, so `l.length + 1` passes always
suffice (`collapseSpacesFuel_noDouble` below) and the bound never cuts
the loop short. -/
def collapseSpacesFuel : Nat → List Char → List Char
  | 0, l => l
  | fuel + 1, l =>
    if containsDoubleSpace l then collapseSpacesFuel fuel (collapseOnce l) else l

/-- The double-space collapsing loop of `cleanResponse`. -/
def collapseSpaces (l : List Char) : List Char :=
  collapseSpacesFuel (l.length + 1) l

/-- `strings.ReplaceAll(response, ".  ", ". ")`. -/
def fixDotSpaceSpace : List Char → List Char
  | [] => []
  | [c] => [c]
  | [c, d] => [c, d]
  | a :: b :: c :: rest =>
    if a = '.' /\ b = ' ' /\ c = ' ' then '.' :: ' ' :: fixDotSpaceSpace rest
    else a :: fixDotSpaceSpace (b :: c :: rest)

/-- `strings.ReplaceAll(response, ". ", ".")`. -/
def removeDotSpace : List Char → List Char
  | [] => []
  | [c] => [c]
  | a :: b :: rest =>
    if a = '.' /\ b = ' ' then '.' :: removeDotSpace rest
    else a :: removeDotSpace (b :: rest)

/-- `strings.ReplaceAll(response, ".", ". ")`. -/
def expandDot : List Char → List Char
  | [] => []
  | c :: rest => if c = '.' then '.' :: ' ' :: expandDot rest else c :: expandDot rest

/-- The white-space class of Go `unicode.IsSpace` (the Unicode
White_Space property), used by `strings.TrimSpace`. -/
def isGoSpace (c : Char) : Bool :=
  decide (0x9 <= c.toNat) && decide (c.toNat <= 0xD) ||
  decide (c = ' ') ||
  decide (c.toNat = 0x85) || decide (c.toNat = 0xA0) || decide (c.toNat = 0x1680) ||
  decide (0x2000 <= c.toNat) && decide (c.toNat <= 0x200A) ||
  decide (c.toNat = 0x2028) || decide (c.toNat = 0x2029) ||
  decide (c.toNat = 0x202F) || decide (c.toNat = 0x205F) || decide (c.toNat = 0x3000)

/-- Trim leading white space (half of `strings.TrimSpace`). -/
def trimLeft (l : List Char) : List Char := l.dropWhile isGoSpace

/-- Trim trailing white space (other half of `strings.TrimSpace`). -/
def trimRight (l : List Char) : List Char := (l.reverse.dropWhile isGoSpace).reverse

/-- `strings.TrimSpace`. -/
def trimSpace (l : List Char) : List Char := trimLeft (trimRight l)

/-- `cleanResponse` (src/main.go lines 200-219) on the rune sequence:
strip So/Sk characters, collapse double spaces until none remain, the
three period-spacing `ReplaceAll` passes, then `TrimSpace`. -/
def cleanChars (l : List Char) : List Char :=
  trimSpace (expandDot (removeDotSpace (fixDotSpaceSpace (collapseSpaces
    (l.filter (fun c => !isSymbolEmoji c))))))

/-- `cleanResponse` on Go strings. -/
def cleanResponse (response : String) : String :=
  String.mk (cleanChars response.data)

/-!
## Sanitizer output predicates

Bool-valued observers used to state the spec's sanitizer properties.
-/

/-- No character pair " ." (a space immediately preceding a period). -/
def noSpaceBeforeDot : List Char → Bool
  | [] => true
  | [_] => true
  | a :: b :: rest => !(decide (a = ' ') && decide (b = '.')) && noSpaceBeforeDot (b :: rest)

/-- Every '.' that is not the final character is immediately followed by
a space. -/
def dotSpacing : List Char → Bool
  | [] => true
  | [_] => true
  | a :: b :: rest => (!decide (a = '.') || decide (b = ' ')) && dotSpacing (b :: rest)

/-- Every '.' (the final character included) is immediately followed by
a space. -/
def dotAlwaysSpace : List Char → Bool
  | [] => true
  | [c] => !decide (c = '.')
  | a :: b :: rest => (!decide (a = '.') || decide (b = ' ')) && dotAlwaysSpace (b :: rest)

/-- No '.' immediately followed by a space. -/
def noDotSpace : List Char → Bool
  | [] => true
  | [_] => true
  | a :: b :: rest => !(decide (a = '.') && decide (b = ' ')) && noDotSpace (b :: rest)

/-!
## Plain string helpers shared by several components

`strings.HasPrefix`, `strings.HasSuffix`, `strings.Contains` and Go's
lexicographic string order (`sort.Strings` comparison), modelled on the
rune lists underlying the strings.
-/

/-- `charsHasPre p l` iff the list `p` is an initial segment of `l`
(`strings.HasPrefix`). -/
def charsHasPre : List Char → List Char → Bool
  | [], _ => true
  | _ :: _, [] => false
  | p :: ps, c :: cs => decide (p = c) && charsHasPre ps cs

/-- `strings.HasPrefix s pre`. -/
def strStartsWith (s pre : String) : Bool := charsHasPre pre.data s.data

/-- `strings.HasSuffix s suf`. -/
def strEndsWith (s suf : String) : Bool := charsHasPre suf.data.reverse s.data.reverse

/-- Go's lexicographic string comparison `a <= b` on rune lists. -/
def charsLe : List Char → List Char → Bool
  | [], _ => true
  | _ :: _, [] => false
  | a :: as, b :: bs => if a = b then charsLe as bs else decide (a < b)

/-- The string order used by `sort.Strings`. -/
def goStrLe (a b : String) : Prop := charsLe a.data b.data = true

instance : DecidableRel goStrLe :=
  fun a b => inferInstanceAs (Decidable (charsLe a.data b.data = true))

/-!
## HTML text extraction (`extractTextFromHTML`, src/main.go lines 180-198)
-/

/-- A node of the parsed markup, mirroring `html.Node`: either a text
node carrying data, or an element with a tag and children. -/
inductive HtmlNode where
  | textNode (data : String)
  | elementNode (tag : String) (children : List HtmlNode)

mutual

/-- The recursive `extractText` closure inside `extractTextFromHTML`:
a text node yields its data, any other node concatenates its children's
text left to right (depth-first, pre-order). -/
def extractText : HtmlNode → String
  | HtmlNode.textNode d => d
  | HtmlNode.elementNode _ children => extractTextList children

/-- The `for c := n.FirstChild; c != nil; c = c.NextSibling` loop of
`extractText`: concatenate the text of the children in order. -/
def extractTextList : List HtmlNode → String
  | [] => ""
  | c :: cs => extractText c ++ extractTextList cs

end

/-- Characters of a tag: everything up to the closing '>'. -/
def splitTag : List Char → List Char × List Char
  | [] => ([], [])
  | '>' :: rest => ([], rest)
  | c :: rest =>
    let r := splitTag rest
    (c :: r.1, r.2)

/-- Characters of a text run: everything up to the next '<'. -/
def splitText : List Char → List Char × List Char
  | [] => ([], [])
  | '<' :: rest => ([], '<' :: rest)
  | c :: rest =>
    let r := splitText rest
    (c :: r.1, r.2)

/-- Modelled from the spec: the HTML parser used by
`extractTextFromHTML` is the external library `golang.org/x/net/html`,
which is not part of this repository.  Per the spec the extractor
"returns a plain-text string with all tags removed and text-node
content concatenated in document order"; we model parsing as
tokenization of the markup into tag elements and text nodes (the
nesting of elements is immaterial to pre-order text concatenation). -/
def tokenizeHtml : Nat → List Char → List HtmlNode
  | 0, _ => []
  | _ + 1, [] => []
  | fuel + 1, '<' :: rest =>
    let r := splitTag rest
    HtmlNode.elementNode (String.mk r.1) [] :: tokenizeHtml fuel r.2
  | fuel + 1, c :: rest =>
    let r := splitText (c :: rest)
    HtmlNode.textNode (String.mk r.1) :: tokenizeHtml fuel r.2

/-- Modelled from the spec: `html.Parse` of the whole markup string.
Like the library parser on an in-memory string it is total (it never
fails on malformed markup), but the result type keeps the error case of
the library signature, which `extractTextFromHTML` checks. -/
def htmlParse (content : String) : Except String HtmlNode :=
  Except.ok (HtmlNode.elementNode "#document" (tokenizeHtml (content.data.length + 1) content.data))

/-- `extractTextFromHTML` (src/main.go lines 180-198): parse, and on a
parse error return the input unmodified; otherwise extract the text. -/
def extractTextFromHTML (content : String) : String :=
  match htmlParse content with
  | Except.error _ => content
  | Except.ok doc => extractText doc

mutual

/-- Text-node data of a markup tree in depth-first pre-order. -/
def textNodesPre : HtmlNode → List String
  | HtmlNode.textNode d => [d]
  | HtmlNode.elementNode _ children => textNodesPreList children

/-- Pre-order text-node data of a sibling list. -/
def textNodesPreList : List HtmlNode → List String
  | [] => []
  | c :: cs => textNodesPre c ++ textNodesPreList cs

end

/-- Concatenation of a list of strings. -/
def concatStrings : List String → String
  | [] => ""
  | x :: rest => x ++ concatStrings rest

/-!
## Mention extraction (`extractMentions`, src/main.go lines 257-262)

The regex `@[\w\.-]+(@[\w\.-]+)?` scanned left to right, greedily:
`FindAllString` collects the matches, `ReplaceAllString` deletes them,
and the remaining text is `TrimSpace`d.
-/

/-- A character of the regex class `[\w\.-]` (Go `\w` is ASCII). -/
def isMentionChar (c : Char) : Bool := c.isAlphanum || c = '_' || c = '.' || c = '-'

/-- Left-to-right scan for `@[\w\.-]+(@[\w\.-]+)?`: returns the matched
tokens and the text with the matches deleted. -/
def extractMentionsChars : List Char → List (List Char) × List Char
  | [] => ([], [])
  | c :: rest =>
    if c = '@' ∧ rest.takeWhile isMentionChar ≠ [] then
      let tok1 := rest.takeWhile isMentionChar
      let rest1 := rest.drop tok1.length
      match _hm : rest1 with
      | '@' :: r2 =>
        if r2.takeWhile isMentionChar ≠ [] then
          let tok2 := r2.takeWhile isMentionChar
          let res := extractMentionsChars (r2.drop tok2.length)
          (('@' :: tok1 ++ '@' :: tok2) :: res.1, res.2)
        else
          let res := extractMentionsChars rest1
          (('@' :: tok1) :: res.1, res.2)
      | _ =>
        let res := extractMentionsChars rest1
        (('@' :: tok1) :: res.1, res.2)
    else
      let res := extractMentionsChars rest
      (res.1, c :: res.2)
termination_by l => l.length
decreasing_by
  · have h1 : (rest.drop (rest.takeWhile isMentionChar).length).length ≤ rest.length := by
      simp only [List.length_drop]
      omega
    have h2 : ('@' :: r2).length = (rest.drop (rest.takeWhile isMentionChar).length).length := by
      rw [← _hm]
    have h3 : (r2.drop (r2.takeWhile isMentionChar).length).length ≤ r2.length := by
      simp only [List.length_drop]
      omega
    simp only [List.length_cons] at h2 ⊢
    omega
  · have h1 : (rest.drop (rest.takeWhile isMentionChar).length).length ≤ rest.length := by
      simp only [List.length_drop]
      omega
    simp only [List.length_cons]
    omega
  · have h1 : (rest.drop (rest.takeWhile isMentionChar).length).length ≤ rest.length := by
      simp only [List.length_drop]
      omega
    simp only [List.length_cons]
    omega
  · simp only [List.length_cons]
    omega

/-- `extractMentions` (src/main.go lines 257-262). -/
def extractMentions (content : String) : List String × String :=
  let r := extractMentionsChars content.data
  (r.1.map String.mk, String.mk (trimSpace r.2))

/-!
## Mention rewriting (`prependMentions`, src/main.go lines 264-299)
-/

/-- Qualification of one handle: `"@"+mention` when it already carries
a domain (contains '@'), else `"@"+mention+"@"+localInstance`. -/
def qualify (localInstance mention : String) : String :=
  if mention.data.contains '@' then "@" ++ mention
  else "@" ++ mention ++ "@" ++ localInstance

/-- The handles inserted into `mentionSet`: every thread mention not
equal to the bot's username, qualified, plus the original author when
not equal to the bot's username, qualified. -/
def mentionKeys (botUsername localInstance : String) (mentions : List String)
    (originalMention : String) : List String :=
  (mentions.filter (fun m => m != botUsername)).map (qualify localInstance) ++
    (if originalMention != botUsername then [qualify localInstance originalMention] else [])

/-- The deduplicated (`mentionSet` map keys) and `sort.Strings`-sorted
mention list of `prependMentions`. -/
def uniqueMentions (botUsername localInstance : String) (mentions : List String)
    (originalMention : String) : List String :=
  List.insertionSort goStrLe (mentionKeys botUsername localInstance mentions originalMention).dedup

/-- `prependMentions` (src/main.go lines 264-299): join the canonical
mention list with single spaces and prepend it to the response. -/
def prependMentions (botUsername localInstance : String) (mentions : List String)
    (originalMention : String) (response : String) : String :=
  let um := uniqueMentions botUsername localInstance mentions originalMention
  if um.length > 0 then String.intercalate " " um ++ " " ++ response
  else response

/-!
## Data model (mastodon structures, read-only inputs)
-/

/-- A media attachment (`mastodon.Attachment`): MIME-like type, URL and
alt-text description. -/
structure Attachment where
  type : String
  url : String
  description : String
deriving DecidableEq

/-- An account (`mastodon.Account`): display username and acct handle. -/
structure MAccount where
  username : String
  acct : String
deriving DecidableEq

/-- A status (`mastodon.Status`): the fields read by the pipeline.  The
upstream `InReplyToID` arrives as either a plain string or a
`mastodon.ID`; both normalize to the same identifier domain, modelled
as `Option String`. -/
structure MStatus where
  id : String
  account : MAccount
  content : String
  visibility : String
  spoilerText : String
  inReplyToID : Option String
  mediaAttachments : List Attachment
  mentions : List String
deriving DecidableEq

/-- A mention notification (`mastodon.Notification` of type mention). -/
structure MNotification where
  account : MAccount
  status : MStatus
deriving DecidableEq

/-- The two environment values the pipeline reads:
`MASTODON_USERNAME` and the host part of `MASTODON_SERVER`. -/
structure Env where
  botUsername : String
  localInstance : String
deriving DecidableEq

/-- `extractContent` (src/main.go lines 244-255): trim the raw body,
strip markup, and collect the declared mention accts. -/
def extractContent (status : MStatus) : List String × String :=
  (status.mentions, extractTextFromHTML (String.mk (trimSpace status.content.data)))

/-!
## Thread walker (`getConversationContext`, src/main.go lines 302-337)

The status-lookup collaborator (`c.GetStatus`) is a function parameter;
`none` models a failed fetch.
-/

/-- Loop body of `getConversationContext`: for up to `fuel` iterations,
prepend the current status's "author: text" line, append its
attachments, and follow `inReplyToID` through the lookup; stop on a
parentless status or a failed lookup. -/
def getConversationContextAux (lookup : String → Option MStatus) :
    Nat → MStatus → List String → List Attachment → List String × List Attachment
  | 0, _, ctx, imgs => (ctx, imgs)
  | fuel + 1, cur, ctx, imgs =>
    let ctx2 := (cur.account.username ++ ": " ++ extractTextFromHTML cur.content) :: ctx
    let imgs2 := imgs ++ cur.mediaAttachments
    match cur.inReplyToID with
    | none => (ctx2, imgs2)
    | some pid =>
      match lookup pid with
      | none => (ctx2, imgs2)
      | some parent => getConversationContextAux lookup fuel parent ctx2 imgs2

/-- `getConversationContext` (src/main.go lines 302-337). -/
def getConversationContext (lookup : String → Option MStatus) (status : MStatus)
    (maxDepth : Nat) : List String × List Attachment :=
  getConversationContextAux lookup maxDepth status [] []

/-- The sequence of identifiers passed to the status-lookup collaborator
by `getConversationContext`, in call order. -/
def getConversationCalls (lookup : String → Option MStatus) :
    Nat → MStatus → List String
  | 0, _ => []
  | fuel + 1, cur =>
    match cur.inReplyToID with
    | none => []
    | some pid =>
      pid :: (match lookup pid with
        | none => []
        | some parent => getConversationCalls lookup fuel parent)

/-- The walk starting at a status can take at least `n` iterations
before hitting a parentless status or a failed lookup. -/
def hasChain (lookup : String → Option MStatus) : MStatus → Nat → Bool
  | _, 0 => true
  | _, 1 => true
  | s, n + 2 =>
    match s.inReplyToID with
    | none => false
    | some pid =>
      match lookup pid with
      | none => false
      | some parent => hasChain lookup parent (n + 1)

/-!
## Prompt assembly (`generateAIResponse`, src/main.go lines 340-387)
and image download (`downloadImage`, src/main.go lines 389-409)

The HTTP collaborator is a function parameter returning the body bytes,
`none` modelling a failed `http.Get` (or a failed `io.ReadAll`).  The
AI completion collaborator consumes the ordered part list.
-/

/-- A prompt part (`genai.Part`): either text or inline image bytes
with a format tag. -/
inductive GenaiPart where
  | text (s : String)
  | imageData (format : String) (bytes : List UInt8)
deriving DecidableEq

/-- `downloadImage` (src/main.go lines 389-409): on a failed GET (or a
failed body read) it returns `nil` bytes, an empty format tag and a
`nil` error; on success it infers the format from the URL suffix
(`.png`/`.webp`, else jpeg).  Note the error component of the result is
`none` on every path, exactly as in the source. -/
def downloadImage (http : String → Option (List UInt8)) (url : String) :
    List UInt8 × String × Option String :=
  match http url with
  | none => ([], "", none)
  | some body =>
    let ext := if strEndsWith url ".png" then "png"
      else if strEndsWith url ".webp" then "webp"
      else "jpeg"
    (body, ext, none)

/-- `isSupportedImageType` (src/main.go lines 221-229). -/
def isSupportedImageType (mediaType : String) : Bool :=
  ["image/jpeg", "image/png", "image/webp"].contains mediaType

/-- `getMediaTypeDescription` (src/main.go lines 231-242). -/
def getMediaTypeDescription (mediaType : String) : String :=
  if strStartsWith mediaType "image/" then "image"
  else if strStartsWith mediaType "video/" then "video"
  else if strStartsWith mediaType "audio/" then "audio file"
  else "file"

/-- The fixed system persona text of `generateAIResponse`. -/
def systemPrompt : String :=
  "You are, Macr0 an AI bot on fuzzies.wtf a Mastodon instance about linux, tech, and random fun. You are a little bit edgy and speak in all lowercase. dont be too mean to people tho, its okay to make jokes but dont go too far. feel free to swear when you want. keep your responses short and entertaining. like on twitter. you do not have the ability to use emojis or images. you can only generate text. "

/-- The fallback reply substituted when the completion fails
(src/main.go line 152). -/
def fallbackMessage : String := "shit fuck.. something went wrong. try again later?"

/-- The per-attachment loop of `generateAIResponse` (`i` is the 0-based
loop index): a supported image is downloaded and added as an image part
with an index label and optional alt text; an unsupported one degrades
to a placeholder text part; a download error aborts the attempt. -/
def imageParts (http : String → Option (List UInt8)) :
    Nat → List Attachment → Except String (List GenaiPart)
  | _, [] => Except.ok []
  | i, a :: rest =>
    if isSupportedImageType a.type then
      match downloadImage http a.url with
      | (_, _, some e) => Except.error e
      | (img, ext, none) =>
        match imageParts http (i + 1) rest with
        | Except.error e => Except.error e
        | Except.ok ps =>
          Except.ok ([GenaiPart.imageData ext img,
            GenaiPart.text ("Image " ++ toString (i + 1) ++ ": ")] ++
            (if a.description = "" then []
             else [GenaiPart.text ("Image alt text: " ++ a.description)]) ++ ps)
    else
      match imageParts http (i + 1) rest with
      | Except.error e => Except.error e
      | Except.ok ps =>
        let md := getMediaTypeDescription a.type
        let md2 := if a.description = "" then md
          else md ++ " with alt text: " ++ a.description
        Except.ok (GenaiPart.text ("Image " ++ toString (i + 1) ++
          ": [User uploaded " ++ md2 ++ " that cannot be viewed]") :: ps)

/-- The ordered prompt assembled by `generateAIResponse`: persona, a
count disclosure when images are present, the transcript header and
lines, the per-image parts, the current user's labeled turn, and the
trailing persona cue. -/
def buildPromptParts (http : String → Option (List UInt8)) (prompt : String)
    (context : List String) (user : String) (images : List Attachment) :
    Except String (List GenaiPart) :=
  let base := [GenaiPart.text systemPrompt] ++
    (if images.length > 0 then
      [GenaiPart.text ("There are " ++ toString images.length ++
        " images in this conversation. Refer to them as needed. ")]
     else []) ++
    [GenaiPart.text "Here is the conversation:"] ++ context.map GenaiPart.text
  match imageParts http 0 images with
  | Except.error e => Except.error e
  | Except.ok ps =>
    Except.ok (base ++ ps ++ [GenaiPart.text (user ++ ": " ++ prompt),
      GenaiPart.text "Macr0:"])

/-- `generateAIResponse` (src/main.go lines 340-387): assemble the
prompt and invoke the completion collaborator. -/
def generateAIResponse (http : String → Option (List UInt8))
    (complete : List GenaiPart → Except String String) (prompt : String)
    (context : List String) (user : String) (images : List Attachment) :
    Except String String :=
  match buildPromptParts http prompt context user images with
  | Except.error e => Except.error e
  | Except.ok parts => complete parts

/-!
## Mention handler (`handleMention`, src/main.go lines 136-178)

The handler's outward-visible actions are recorded as an effect trace:
one entry per completion call and one per posted status.
-/

/-- A posted status (`mastodon.Toot`). -/
structure Toot where
  status : String
  inReplyToID : String
  visibility : String
  spoilerText : String
deriving DecidableEq

/-- An observable action of the handler. -/
inductive Effect where
  | completionCall (parts : List GenaiPart)
  | post (t : Toot)
deriving DecidableEq

/-- The filter of `handleMention` (src/main.go line 138): the event is
discarded when the author is the bot itself, or visibility is direct
and the author is not the allow-listed handle, or visibility is
private. -/
def mentionFiltered (env : Env) (n : MNotification) : Prop :=
  n.account.acct = env.botUsername ∨
    (n.status.visibility = "direct" ∧ n.account.acct ≠ "micr0") ∨
    n.status.visibility = "private"

instance (env : Env) (n : MNotification) : Decidable (mentionFiltered env n) := by
  unfold mentionFiltered
  infer_instance

/-- `handleMention` (src/main.go lines 136-178) as an effect trace:
filter; extract mentions and text; walk the thread; generate (on
failure substitute the fallback, on success extract echoed mentions and
sanitize); prepend the canonical mention list; downgrade public to
unlisted; post threaded to the original with its spoiler text. -/
def handleMention (env : Env) (lookup : String → Option MStatus)
    (complete : List GenaiPart → Except String String)
    (http : String → Option (List UInt8)) (n : MNotification) : List Effect :=
  if mentionFiltered env n then []
  else
    let mc := extractContent n.status
    let cw := getConversationContext lookup n.status 20
    let visibility := if n.status.visibility = "public" then "unlisted"
      else n.status.visibility
    match buildPromptParts http mc.2 cw.1 n.account.username cw.2 with
    | Except.error _ =>
      [Effect.post {
        status := prependMentions env.botUsername env.localInstance mc.1
          n.account.acct fallbackMessage,
        inReplyToID := n.status.id, visibility := visibility,
        spoilerText := n.status.spoilerText }]
    | Except.ok parts =>
      let response := match complete parts with
        | Except.error _ => fallbackMessage
        | Except.ok r => cleanResponse (extractMentions r).2
      [Effect.completionCall parts,
       Effect.post {
        status := prependMentions env.botUsername env.localInstance mc.1
          n.account.acct response,
        inReplyToID := n.status.id, visibility := visibility,
        spoilerText := n.status.spoilerText }]

/-- The "author: text" line the walker prepends for one status. -/
def contextLine (s : MStatus) : String :=
  s.account.username ++ ": " ++ extractTextFromHTML s.content

/-!
## Concrete fixtures

Small closed instances of the collaborators and data used to evaluate
the pipeline at concrete inputs.
-/

/-- A bot configuration. -/
def botEnv0 : Env := { botUsername := "macr0", localInstance := "fuzzies.wtf" }

/-- An ordinary (non-bot, non-allow-listed) account. -/
def acctAlice : MAccount := { username := "alice", acct := "alice" }

/-- Another ordinary account. -/
def acctBob : MAccount := { username := "bob", acct := "bob" }

/-- A plain public status with no parent and no attachments. -/
def statusPlain : MStatus :=
  { id := "101", account := acctAlice, content := "<p>hi</p>", visibility := "public",
    spoilerText := "", inReplyToID := none, mediaAttachments := [], mentions := [] }

/-- A direct-visibility status from a non-allow-listed account. -/
def statusDirect : MStatus :=
  { id := "102", account := acctBob, content := "<p>psst</p>", visibility := "direct",
    spoilerText := "", inReplyToID := none, mediaAttachments := [], mentions := [] }

/-- A supported-format image attachment. -/
def imgPng : Attachment :=
  { type := "image/png", url := "http://files.example/a.png", description := "" }

/-- A public status carrying one supported-format image attachment. -/
def statusImage : MStatus :=
  { id := "103", account := acctAlice, content := "<p>look</p>", visibility := "public",
    spoilerText := "cw", inReplyToID := none, mediaAttachments := [imgPng], mentions := [] }

/-- The mention notification for `statusPlain`. -/
def notifPlain : MNotification := { account := acctAlice, status := statusPlain }

/-- The mention notification for `statusDirect`. -/
def notifDirect : MNotification := { account := acctBob, status := statusDirect }

/-- The mention notification for `statusImage`. -/
def notifImage : MNotification := { account := acctAlice, status := statusImage }

/-- A status lookup that fails on every identifier. -/
def lookupNone : String → Option MStatus := fun _ => none

/-- Root of a three-status reply chain. -/
def chainS3 : MStatus :=
  { id := "3", account := acctBob, content := "root", visibility := "public",
    spoilerText := "", inReplyToID := none, mediaAttachments := [], mentions := [] }

/-- Middle status of the chain, replying to `chainS3`. -/
def chainS2 : MStatus :=
  { id := "2", account := acctAlice, content := "mid", visibility := "public",
    spoilerText := "", inReplyToID := some "3", mediaAttachments := [], mentions := [] }

/-- Leaf of the chain, replying to `chainS2`. -/
def chainS1 : MStatus :=
  { id := "1", account := acctBob, content := "leaf", visibility := "public",
    spoilerText := "", inReplyToID := some "2", mediaAttachments := [], mentions := [] }

/-- A lookup resolving exactly the two parents of the chain. -/
def lookupChain : String → Option MStatus := fun i =>
  if i = "2" then some chainS2 else if i = "3" then some chainS3 else none

/-- A completion collaborator that always fails. -/
def completeErr : List GenaiPart → Except String String := fun _ => Except.error "backend down"

/-- A completion collaborator that always answers with a fixed text. -/
def completeOk0 : List GenaiPart → Except String String := fun _ => Except.ok "@alice sure.thing"

/-- An HTTP collaborator whose every GET fails. -/
def httpNone : String → Option (List UInt8) := fun _ => none

/-- An HTTP collaborator returning a fixed three-byte body. -/
def httpBytes : String → Option (List UInt8) := fun _ => some [7, 8, 9]

/-!
## Order properties of the Go string comparison
-/

theorem collapseOnce_length_le : (l : List Char) → (collapseOnce l).length <= l.length
  | [] => Nat.le_refl _
  | [_] => Nat.le_refl _
  | a :: b :: rest => by
    unfold collapseOnce
    split
    · have := collapseOnce_length_le rest
      simp only [List.length_cons]
      omega
    · have := collapseOnce_length_le (b :: rest)
      simp only [List.length_cons] at *
      omega

theorem collapseOnce_length_lt : (l : List Char) → containsDoubleSpace l = true →
    (collapseOnce l).length < l.length
  | [], h => by simp [containsDoubleSpace] at h
  | [_], h => by simp [containsDoubleSpace] at h
  | a :: b :: rest, h => by
    unfold collapseOnce
    split
    · have := collapseOnce_length_le rest
      simp only [List.length_cons]
      omega
    · rename_i hg
      have hbr : containsDoubleSpace (b :: rest) = true := by
        simp only [containsDoubleSpace, Bool.or_eq_true, Bool.and_eq_true, decide_eq_true_eq] at h
        rcases h with ⟨h1, h2⟩ | h
        · exact absurd ⟨h1, h2⟩ hg
        · exact h
      have := collapseOnce_length_lt (b :: rest) hbr
      simp only [List.length_cons] at *
      omega

theorem charsLe_total : ∀ x y : List Char, charsLe x y = true ∨ charsLe y x = true
  | [], _ => Or.inl rfl
  | _ :: _, [] => Or.inr rfl
  | a :: as, b :: bs => by
    by_cases hab : a = b
    · subst hab
      simpa only [charsLe, if_pos rfl] using charsLe_total as bs
    · have hba : ¬b = a := fun h => hab h.symm
      simp only [charsLe, if_neg hab, if_neg hba, decide_eq_true_eq]
      rcases lt_or_gt_of_ne hab with h | h
      · exact Or.inl h
      · exact Or.inr h

theorem charsLe_trans : ∀ x y z : List Char,
    charsLe x y = true → charsLe y z = true → charsLe x z = true
  | [], _, _, _, _ => rfl
  | a :: as, [], z, hxy, _ => by simp [charsLe] at hxy
  | a :: as, b :: bs, [], _, hyz => by simp [charsLe] at hyz
  | a :: as, b :: bs, c :: cs, hxy, hyz => by
    by_cases hab : a = b <;> by_cases hbc : b = c
    · subst hab; subst hbc
      simp only [charsLe, if_pos rfl] at hxy hyz ⊢
      exact charsLe_trans as bs cs hxy hyz
    · subst hab
      simp only [charsLe, if_pos rfl, if_neg hbc] at hxy hyz ⊢
      exact hyz
    · subst hbc
      simp only [charsLe, if_pos rfl, if_neg hab] at hxy hyz ⊢
      exact hxy
    · simp only [charsLe, if_neg hab, if_neg hbc, decide_eq_true_eq] at hxy hyz
      have hac : a < c := lt_trans hxy hyz
      simp only [charsLe, if_neg (ne_of_lt hac), decide_eq_true_eq]
      exact hac

theorem charsLe_antisymm : ∀ x y : List Char,
    charsLe x y = true → charsLe y x = true → x = y
  | [], [], _, _ => rfl
  | [], _ :: _, _, hyx => by simp [charsLe] at hyx
  | _ :: _, [], hxy, _ => by simp [charsLe] at hxy
  | a :: as, b :: bs, hxy, hyx => by
    by_cases hab : a = b
    · subst hab
      simp only [charsLe, if_pos rfl] at hxy hyx
      rw [charsLe_antisymm as bs hxy hyx]
    · have hba : ¬b = a := fun h => hab h.symm
      simp only [charsLe, if_neg hab, if_neg hba, decide_eq_true_eq] at hxy hyx
      exact absurd hyx (not_lt_of_lt hxy)

instance : IsTotal String goStrLe :=
  ⟨fun a b => charsLe_total a.data b.data⟩

instance : IsTrans String goStrLe :=
  ⟨fun a b c => charsLe_trans a.data b.data c.data⟩

instance : IsAntisymm String goStrLe :=
  ⟨fun a b hab hba => by
    cases a; cases b
    exact congrArg String.mk (charsLe_antisymm _ _ hab hba)⟩

/-!
## Properties of the canonical mention list
-/

theorem uniqueMentions_sorted (bu li : String) (l : List String) (a : String) :
    List.Sorted goStrLe (uniqueMentions bu li l a) :=
  List.sorted_insertionSort goStrLe _

theorem uniqueMentions_nodup (bu li : String) (l : List String) (a : String) :
    (uniqueMentions bu li l a).Nodup :=
  ((List.perm_insertionSort goStrLe _).nodup_iff).mpr (List.nodup_dedup _)

theorem mem_mentionKeys_iff (bu li : String) (l : List String) (a x : String) :
    x ∈ mentionKeys bu li l a ↔
      ((∃ m ∈ l, m ≠ bu ∧ x = qualify li m) ∨ (a ≠ bu ∧ x = qualify li a)) := by
  simp only [mentionKeys, List.mem_append, List.mem_map, List.mem_filter,
    bne_iff_ne, ne_eq]
  constructor
  · rintro (⟨m, ⟨hm, hne⟩, rfl⟩ | hx)
    · exact Or.inl ⟨m, hm, hne, rfl⟩
    · by_cases ha : a = bu
      · simp [ha] at hx
      · simp only [if_pos, ha, not_false_eq_true, if_true, List.mem_singleton] at hx
        · exact Or.inr ⟨ha, hx⟩
  · rintro (⟨m, hm, hne, rfl⟩ | ⟨ha, rfl⟩)
    · exact Or.inl ⟨m, ⟨hm, hne⟩, rfl⟩
    · right
      simp [ha]

theorem mem_uniqueMentions_iff (bu li : String) (l : List String) (a x : String) :
    x ∈ uniqueMentions bu li l a ↔ x ∈ mentionKeys bu li l a := by
  unfold uniqueMentions
  rw [(List.perm_insertionSort goStrLe _).mem_iff, List.mem_dedup]

theorem uniqueMentions_ext (bu li : String) (l1 l2 : List String) (a : String)
    (h : ∀ x, x ∈ l1 ↔ x ∈ l2) :
    uniqueMentions bu li l1 a = uniqueMentions bu li l2 a := by
  have hkeys : ∀ x, x ∈ mentionKeys bu li l1 a ↔ x ∈ mentionKeys bu li l2 a := by
    intro x
    rw [mem_mentionKeys_iff, mem_mentionKeys_iff]
    constructor
    · rintro (⟨m, hm, hr⟩ | hr)
      · exact Or.inl ⟨m, (h m).mp hm, hr⟩
      · exact Or.inr hr
    · rintro (⟨m, hm, hr⟩ | hr)
      · exact Or.inl ⟨m, (h m).mpr hm, hr⟩
      · exact Or.inr hr
  have hperm : List.Perm (mentionKeys bu li l1 a).dedup (mentionKeys bu li l2 a).dedup := by
    rw [List.perm_ext_iff_of_nodup (List.nodup_dedup _) (List.nodup_dedup _)]
    intro x
    rw [List.mem_dedup, List.mem_dedup]
    exact hkeys x
  exact List.eq_of_perm_of_sorted
    (((List.perm_insertionSort goStrLe _).trans hperm).trans
      (List.perm_insertionSort goStrLe _).symm)
    (List.sorted_insertionSort goStrLe _) (List.sorted_insertionSort goStrLe _)

/-- C5: the mention-prefix builder produces a canonical list — every
bare handle (no '@domain' suffix) among the thread mentions and the
original author is qualified with the local domain, duplicates are
removed via a set, the result is sorted lexicographically (and joined
by single spaces); consequently two inputs with the same handles in any
order and multiplicity yield the identical prefix string. -/
theorem C5_mention_list_canonical :
    (∀ bu li l a, List.Sorted goStrLe (uniqueMentions bu li l a) ∧
      (uniqueMentions bu li l a).Nodup ∧
      ∀ m, m ∈ l → m ≠ bu → m.data.contains '@' = false →
        qualify li m = "@" ++ m ++ "@" ++ li ∧
          qualify li m ∈ uniqueMentions bu li l a) ∧
    (∀ bu li l1 l2 a r, l1 ⊆ l2 → l2 ⊆ l1 →
      prependMentions bu li l1 a r = prependMentions bu li l2 a r) := by
  constructor
  · intro bu li l a
    refine ⟨uniqueMentions_sorted bu li l a, uniqueMentions_nodup bu li l a, ?_⟩
    intro m hm hne hbare
    have hq : qualify li m = "@" ++ m ++ "@" ++ li := by
      unfold qualify
      rw [hbare]
      simp
    refine ⟨hq, ?_⟩
    rw [mem_uniqueMentions_iff, mem_mentionKeys_iff]
    exact Or.inl ⟨m, hm, hne, rfl⟩
  · intro bu li l1 l2 a r h12 h21
    unfold prependMentions
    rw [uniqueMentions_ext bu li l1 l2 a (fun x => ⟨fun hx => h12 hx, fun hx => h21 hx⟩)]

/-- Witness for C5 at concrete inputs: the same handles in a different
order and multiplicity produce the identical prefix string. -/
theorem C5_mention_list_canonical_witness :
    prependMentions "bot" "home.social" ["a", "b@other.org", "a"] "orig" "x" =
      prependMentions "bot" "home.social" ["b@other.org", "a"] "orig" "x" :=
  C5_mention_list_canonical.2 "bot" "home.social" _ _ "orig" "x"
    (by decide) (by decide)

/-- C6 counterexample: with bot username "bot" on instance
"home.social", a thread mention of the bot in fully-qualified form
("bot@home.social") is not excluded — the prepended mention list
contains the bot's own handle "@bot@home.social". -/
theorem C6_counterexample :
    "@bot@home.social" ∈ uniqueMentions "bot" "home.social" ["bot@home.social"] "orig" ∧
      "@bot@home.social" = "@" ++ "bot" ++ "@" ++ "home.social" :=
  ⟨by decide, rfl⟩

/-- C6 (amended): every entry of the prepended mention list is the
qualification of some input handle (a thread mention or the original
author) that differs, as a raw string, from the configured bot
username; only an occurrence exactly equal to the configured username
is excluded, so a differently-spelled (e.g. fully-qualified) form of
the bot's handle is not. -/
theorem C6_no_exact_bot_handle (bu li : String) (l : List String) (a x : String)
    (hx : x ∈ uniqueMentions bu li l a) :
    ∃ h, (h ∈ l ∨ h = a) ∧ h ≠ bu ∧ x = qualify li h := by
  rw [mem_uniqueMentions_iff, mem_mentionKeys_iff] at hx
  rcases hx with ⟨m, hm, hne, rfl⟩ | ⟨ha, rfl⟩
  · exact ⟨m, Or.inl hm, hne, rfl⟩
  · exact ⟨a, Or.inr rfl, ha, rfl⟩

/-- Witness for the amended C6 at a concrete input. -/
theorem C6_no_exact_bot_handle_witness :
    "@alice@home.social" ∈ uniqueMentions "bot" "home.social" ["alice"] "orig" ∧
      ∃ h, (h ∈ ["alice"] ∨ h = "orig") ∧ h ≠ "bot" ∧
        "@alice@home.social" = qualify "home.social" h :=
  ⟨by decide,
    C6_no_exact_bot_handle "bot" "home.social" ["alice"] "orig" "@alice@home.social"
      (by decide)⟩

/-- C8: a mention notification whose author is the bot itself, or whose
visibility is direct with a non-allow-listed author, or whose
visibility is private, is discarded with no further action — the
handler's effect trace is empty (zero completion calls, zero posts). -/
theorem C8_filter_discards (env : Env) (lookup : String → Option MStatus)
    (complete : List GenaiPart → Except String String)
    (http : String → Option (List UInt8)) (n : MNotification)
    (h : mentionFiltered env n) :
    handleMention env lookup complete http n = [] := by
  unfold handleMention
  rw [if_pos h]

/-- Witness for C8: a direct-visibility notification from a
non-allow-listed account produces an empty effect trace. -/
theorem C8_filter_discards_witness :
    mentionFiltered botEnv0 notifDirect ∧
      handleMention botEnv0 lookupNone completeErr httpNone notifDirect = [] :=
  ⟨by decide, C8_filter_discards botEnv0 lookupNone completeErr httpNone notifDirect
    (by decide)⟩

/-!
## Thread walker lemmas
-/

theorem getConversationContextAux_length_le (lookup : String → Option MStatus) :
    ∀ (n : Nat) (s : MStatus) (ctx : List String) (imgs : List Attachment),
      ((getConversationContextAux lookup n s ctx imgs).1).length ≤ n + ctx.length
  | 0, s, ctx, imgs => by simp [getConversationContextAux]
  | n + 1, s, ctx, imgs => by
    unfold getConversationContextAux
    cases hs : s.inReplyToID with
    | none => simp; omega
    | some pid =>
      cases hl : lookup pid with
      | none => simp [hl]; omega
      | some parent =>
        have := getConversationContextAux_length_le lookup n parent
          ((s.account.username ++ ": " ++ extractTextFromHTML s.content) :: ctx)
          (imgs ++ s.mediaAttachments)
        simp [hl] at this ⊢
        omega

theorem getConversationContextAux_length_exact (lookup : String → Option MStatus) :
    ∀ (n : Nat) (s : MStatus), hasChain lookup s n = true →
      ∀ (ctx : List String) (imgs : List Attachment),
        ((getConversationContextAux lookup n s ctx imgs).1).length = n + ctx.length
  | 0, s, _, ctx, imgs => by simp [getConversationContextAux]
  | 1, s, _, ctx, imgs => by
    unfold getConversationContextAux
    cases hs : s.inReplyToID with
    | none => simp; omega
    | some pid =>
      cases hl : lookup pid with
      | none => simp [hl]; omega
      | some parent => simp [hl, getConversationContextAux]; omega
  | n + 2, s, hc, ctx, imgs => by
    unfold hasChain at hc
    cases hs : s.inReplyToID with
    | none => simp [hs] at hc
    | some pid =>
      simp only [hs] at hc
      cases hl : lookup pid with
      | none => simp [hl] at hc
      | some parent =>
        simp only [hl] at hc
        unfold getConversationContextAux
        have := getConversationContextAux_length_exact lookup (n + 1) parent hc
          ((s.account.username ++ ": " ++ extractTextFromHTML s.content) :: ctx)
          (imgs ++ s.mediaAttachments)
        simp [hs, hl] at this ⊢
        omega

/-- C7: the thread walk prepends one "author: text" line per status so
the result is oldest-first, never exceeds maxDepth lines, returns
exactly maxDepth lines when the chain allows maxDepth iterations, and
on a chain of depth 3 with maxDepth 5 returns exactly the three lines
(oldest first) while invoking the status lookup only for the two
parents — it stops at the parentless root. -/
theorem C7_thread_walk :
    (∀ (lookup : String → Option MStatus) (s : MStatus) (maxDepth : Nat),
      ((getConversationContext lookup s maxDepth).1).length ≤ maxDepth) ∧
    (∀ (lookup : String → Option MStatus) (s : MStatus) (maxDepth : Nat),
      hasChain lookup s maxDepth = true →
      ((getConversationContext lookup s maxDepth).1).length = maxDepth) ∧
    (∀ (lookup : String → Option MStatus) (s1 s2 s3 : MStatus) (id2 id3 : String),
      s1.inReplyToID = some id2 → lookup id2 = some s2 →
      s2.inReplyToID = some id3 → lookup id3 = some s3 →
      s3.inReplyToID = none →
      (getConversationContext lookup s1 5).1 =
        [contextLine s3, contextLine s2, contextLine s1] ∧
      getConversationCalls lookup 5 s1 = [id2, id3]) := by
  refine ⟨?_, ?_, ?_⟩
  · intro lookup s maxDepth
    have := getConversationContextAux_length_le lookup maxDepth s [] []
    simpa using this
  · intro lookup s maxDepth hc
    have := getConversationContextAux_length_exact lookup maxDepth s hc [] []
    simpa using this
  · intro lookup s1 s2 s3 id2 id3 h1 h2 h3 h4 h5
    constructor
    · simp [getConversationContext, getConversationContextAux, h1, h2, h3, h4, h5,
        contextLine]
    · simp [getConversationCalls, h1, h2, h3, h4, h5]

/-- Witness for C7: the concrete three-status chain with maxDepth 5
yields the three lines oldest-first and exactly the two parent lookups,
and with maxDepth 2 the walk truncates to exactly 2 lines. -/
theorem C7_thread_walk_witness :
    (getConversationContext lookupChain chainS1 5).1 =
      ["bob: root", "alice: mid", "bob: leaf"] ∧
    getConversationCalls lookupChain 5 chainS1 = ["2", "3"] ∧
    ((getConversationContext lookupChain chainS1 2).1).length = 2 := by
  have h3 := C7_thread_walk.2.2 lookupChain chainS1 chainS2 chainS3 "2" "3"
    (by decide) (by decide) (by decide) (by decide) (by decide)
  have h2 := C7_thread_walk.2.1 lookupChain chainS1 2 (by decide)
  refine ⟨?_, h3.2, h2⟩
  rw [h3.1]
  decide

/-!
## Handler and prompt-assembly lemmas
-/

theorem toString_nat_one : toString (1 : Nat) = "1" := rfl

theorem downloadImage_error_none (http : String → Option (List UInt8)) (url : String) :
    (downloadImage http url).2.2 = none := by
  unfold downloadImage
  cases http url <;> simp

theorem imageParts_single_supported (http : String → Option (List UInt8))
    (a : Attachment) (hs : isSupportedImageType a.type = true) :
    imageParts http 0 [a] =
      Except.ok ([GenaiPart.imageData (downloadImage http a.url).2.1
          (downloadImage http a.url).1,
        GenaiPart.text "Image 1: "] ++
        (if a.description = "" then []
         else [GenaiPart.text ("Image alt text: " ++ a.description)])) := by
  unfold imageParts
  rw [if_pos hs]
  cases hcase : http a.url with
  | none =>
    simp [downloadImage, hcase, imageParts]
    rfl
  | some body =>
    simp [downloadImage, hcase, imageParts]
    rfl

theorem getConversationContextAux_no_parent (lookup : String → Option MStatus)
    (m : Nat) (s : MStatus) (ctx : List String) (imgs : List Attachment)
    (hr : s.inReplyToID = none) :
    getConversationContextAux lookup (m + 1) s ctx imgs =
      (contextLine s :: ctx, imgs ++ s.mediaAttachments) := by
  unfold getConversationContextAux
  simp [hr, contextLine]

theorem getConversationContext_no_parent (lookup : String → Option MStatus)
    (s : MStatus) (hr : s.inReplyToID = none) :
    getConversationContext lookup s 20 = ([contextLine s], s.mediaAttachments) := by
  unfold getConversationContext
  have h := getConversationContextAux_no_parent lookup 19 s [] [] hr
  simpa using h

/-- C1 (amended): for a mention event passing the filter, when the
completion call fails the handler substitutes the fixed apologetic
fallback message and skips post-processing (mention extraction and
sanitization) — but the mention-prefix step still runs: the posted text
is the canonical mention prefix prepended to the raw fallback text, not
the fallback as-is. -/
theorem C1_failure_fallback_prefixed (env : Env) (lookup : String → Option MStatus)
    (complete : List GenaiPart → Except String String)
    (http : String → Option (List UInt8)) (n : MNotification)
    (parts : List GenaiPart) (err : String)
    (hf : ¬mentionFiltered env n)
    (hp : buildPromptParts http (extractContent n.status).2
      (getConversationContext lookup n.status 20).1 n.account.username
      (getConversationContext lookup n.status 20).2 = Except.ok parts)
    (hc : complete parts = Except.error err) :
    handleMention env lookup complete http n =
      [Effect.completionCall parts,
       Effect.post {
         status := prependMentions env.botUsername env.localInstance
           (extractContent n.status).1 n.account.acct fallbackMessage,
         inReplyToID := n.status.id,
         visibility := if n.status.visibility = "public" then "unlisted"
           else n.status.visibility,
         spoilerText := n.status.spoilerText }] := by
  unfold handleMention
  rw [if_neg hf]
  simp only [hp, hc]

set_option maxRecDepth 16384 in
/-- C1 counterexample: a concrete passing event whose completion fails.
The posted text is the mention prefix followed by the fallback — not
the fallback as-is, so the mention-prefix step is not skipped. -/
theorem C1_counterexample :
    handleMention botEnv0 lookupNone completeErr httpNone notifPlain =
      [Effect.completionCall
        [GenaiPart.text systemPrompt, GenaiPart.text "Here is the conversation:",
         GenaiPart.text "alice: hi", GenaiPart.text "alice: hi",
         GenaiPart.text "Macr0:"],
       Effect.post {
         status := "@alice@fuzzies.wtf shit fuck.. something went wrong. try again later?",
         inReplyToID := "101", visibility := "unlisted", spoilerText := "" }] ∧
      "@alice@fuzzies.wtf shit fuck.. something went wrong. try again later?" ≠
        fallbackMessage :=
  ⟨by decide, by decide⟩

set_option maxRecDepth 16384 in
/-- Witness for the amended C1 at the same concrete event. -/
theorem C1_failure_fallback_prefixed_witness :
    handleMention botEnv0 lookupNone completeErr httpNone notifPlain =
      [Effect.completionCall
        [GenaiPart.text systemPrompt, GenaiPart.text "Here is the conversation:",
         GenaiPart.text "alice: hi", GenaiPart.text "alice: hi",
         GenaiPart.text "Macr0:"],
       Effect.post {
         status := prependMentions "macr0" "fuzzies.wtf" [] "alice" fallbackMessage,
         inReplyToID := "101", visibility := "unlisted", spoilerText := "" }] :=
  C1_failure_fallback_prefixed botEnv0 lookupNone completeErr httpNone notifPlain
    [GenaiPart.text systemPrompt, GenaiPart.text "Here is the conversation:",
     GenaiPart.text "alice: hi", GenaiPart.text "alice: hi", GenaiPart.text "Macr0:"]
    "backend down" (by decide) rfl rfl

/-- C2: contrary to the claim, a failed byte fetch for a supported
image does not propagate: `downloadImage` returns a nil error on the
failed-GET path (src/main.go line 392), so the caller's error check
never fires, nothing is logged, and prompt assembly silently continues
with empty image bytes and an empty format tag. -/
theorem C2_fetch_error_swallowed :
    (∀ (http : String → Option (List UInt8)) (url : String), http url = none →
      downloadImage http url = ([], "", none)) ∧
    (∀ (http : String → Option (List UInt8)) (img : Attachment)
      (prompt : String) (context : List String) (user : String),
      http img.url = none → isSupportedImageType img.type = true →
      buildPromptParts http prompt context user [img] =
        Except.ok ([GenaiPart.text systemPrompt,
          GenaiPart.text "There are 1 images in this conversation. Refer to them as needed. ",
          GenaiPart.text "Here is the conversation:"] ++ context.map GenaiPart.text ++
          [GenaiPart.imageData "" [], GenaiPart.text "Image 1: "] ++
          (if img.description = "" then []
           else [GenaiPart.text ("Image alt text: " ++ img.description)]) ++
          [GenaiPart.text (user ++ ": " ++ prompt), GenaiPart.text "Macr0:"])) := by
  constructor
  · intro http url h
    unfold downloadImage
    rw [h]
  · intro http img prompt context user hh hs
    have himg : imageParts http 0 [img] =
        Except.ok ([GenaiPart.imageData (downloadImage http img.url).2.1
            (downloadImage http img.url).1,
          GenaiPart.text "Image 1: "] ++
          (if img.description = "" then []
           else [GenaiPart.text ("Image alt text: " ++ img.description)])) :=
      imageParts_single_supported http img hs
    rw [show downloadImage http img.url = ([], "", none) by
      unfold downloadImage; rw [hh]] at himg
    unfold buildPromptParts
    rw [himg]
    simp
    rfl

/-- Witness for C2: the concrete failing fetch on the supported png
attachment yields the swallowed error and the silently assembled
prompt. -/
theorem C2_fetch_error_swallowed_witness :
    downloadImage httpNone "http://files.example/a.png" = ([], "", none) ∧
      buildPromptParts httpNone "look" ["alice: look"] "alice" [imgPng] =
        Except.ok [GenaiPart.text systemPrompt,
          GenaiPart.text "There are 1 images in this conversation. Refer to them as needed. ",
          GenaiPart.text "Here is the conversation:", GenaiPart.text "alice: look",
          GenaiPart.imageData "" [], GenaiPart.text "Image 1: ",
          GenaiPart.text "alice: look", GenaiPart.text "Macr0:"] := by
  constructor
  · exact C2_fetch_error_swallowed.1 httpNone "http://files.example/a.png" rfl
  · have h := C2_fetch_error_swallowed.2 httpNone imgPng "look" ["alice: look"] "alice"
      rfl (by decide)
    simpa using h

/-- C10: a filtered-in mention on a thread-leaf status carrying exactly
one supported-format image attachment produces a prompt with the fixed
segment order — persona, count disclosure, transcript header and line,
image bytes, index label, optional alt text, the labeled current user
turn, and the trailing persona cue — and the posted reply downgrades
public visibility to unlisted (any other visibility is preserved) while
keeping the original's spoiler text and reply target. -/
theorem C10_image_prompt_and_visibility (env : Env) (lookup : String → Option MStatus)
    (complete : List GenaiPart → Except String String)
    (http : String → Option (List UInt8)) (n : MNotification) (img : Attachment)
    (hf : ¬mentionFiltered env n)
    (hr : n.status.inReplyToID = none)
    (ha : n.status.mediaAttachments = [img])
    (hs : isSupportedImageType img.type = true) :
    ∃ t : Toot,
      handleMention env lookup complete http n =
        [Effect.completionCall
          ([GenaiPart.text systemPrompt,
            GenaiPart.text "There are 1 images in this conversation. Refer to them as needed. ",
            GenaiPart.text "Here is the conversation:",
            GenaiPart.text (contextLine n.status),
            GenaiPart.imageData (downloadImage http img.url).2.1
              (downloadImage http img.url).1,
            GenaiPart.text "Image 1: "] ++
            (if img.description = "" then []
             else [GenaiPart.text ("Image alt text: " ++ img.description)]) ++
            [GenaiPart.text (n.account.username ++ ": " ++ (extractContent n.status).2),
             GenaiPart.text "Macr0:"]),
         Effect.post t] ∧
      t.visibility = (if n.status.visibility = "public" then "unlisted"
        else n.status.visibility) ∧
      t.spoilerText = n.status.spoilerText ∧ t.inReplyToID = n.status.id := by
  have hctx : getConversationContext lookup n.status 20 =
      ([contextLine n.status], n.status.mediaAttachments) :=
    getConversationContext_no_parent lookup n.status hr
  have hbp : buildPromptParts http (extractContent n.status).2 [contextLine n.status]
      n.account.username [img] =
      Except.ok ([GenaiPart.text systemPrompt,
        GenaiPart.text "There are 1 images in this conversation. Refer to them as needed. ",
        GenaiPart.text "Here is the conversation:",
        GenaiPart.text (contextLine n.status),
        GenaiPart.imageData (downloadImage http img.url).2.1
          (downloadImage http img.url).1,
        GenaiPart.text "Image 1: "] ++
        (if img.description = "" then []
         else [GenaiPart.text ("Image alt text: " ++ img.description)]) ++
        [GenaiPart.text (n.account.username ++ ": " ++ (extractContent n.status).2),
         GenaiPart.text "Macr0:"]) := by
    unfold buildPromptParts
    rw [imageParts_single_supported http img hs]
    simp
    rfl
  unfold handleMention
  rw [if_neg hf]
  simp only [hctx, ha]
  rw [hbp]
  cases complete ([GenaiPart.text systemPrompt,
      GenaiPart.text "There are 1 images in this conversation. Refer to them as needed. ",
      GenaiPart.text "Here is the conversation:",
      GenaiPart.text (contextLine n.status),
      GenaiPart.imageData (downloadImage http img.url).2.1
        (downloadImage http img.url).1,
      GenaiPart.text "Image 1: "] ++
      (if img.description = "" then []
       else [GenaiPart.text ("Image alt text: " ++ img.description)]) ++
      [GenaiPart.text (n.account.username ++ ": " ++ (extractContent n.status).2),
       GenaiPart.text "Macr0:"]) with
  | error e => exact ⟨_, rfl, rfl, rfl, rfl⟩
  | ok r => exact ⟨_, rfl, rfl, rfl, rfl⟩

set_option maxRecDepth 16384 in
/-- Witness for C10 at a concrete public mention with one png
attachment and a succeeding completion. -/
theorem C10_image_prompt_and_visibility_witness :
    ∃ t : Toot,
      handleMention botEnv0 lookupChain completeOk0 httpBytes notifImage =
        [Effect.completionCall
          ([GenaiPart.text systemPrompt,
            GenaiPart.text "There are 1 images in this conversation. Refer to them as needed. ",
            GenaiPart.text "Here is the conversation:",
            GenaiPart.text (contextLine statusImage),
            GenaiPart.imageData (downloadImage httpBytes imgPng.url).2.1
              (downloadImage httpBytes imgPng.url).1,
            GenaiPart.text "Image 1: "] ++
            (if imgPng.description = "" then []
             else [GenaiPart.text ("Image alt text: " ++ imgPng.description)]) ++
            [GenaiPart.text (notifImage.account.username ++ ": " ++
              (extractContent notifImage.status).2),
             GenaiPart.text "Macr0:"]),
         Effect.post t] ∧
      t.visibility = (if notifImage.status.visibility = "public" then "unlisted"
        else notifImage.status.visibility) ∧
      t.spoilerText = notifImage.status.spoilerText ∧
      t.inReplyToID = notifImage.status.id :=
  C10_image_prompt_and_visibility botEnv0 lookupChain completeOk0 httpBytes notifImage
    imgPng (by decide) rfl rfl (by decide)

/-!
## HTML extraction theorems
-/

theorem concatStrings_append : ∀ a b : List String,
    concatStrings (a ++ b) = concatStrings a ++ concatStrings b
  | [], b => by simp [concatStrings]
  | x :: rest, b => by
    simp [concatStrings, concatStrings_append rest b, String.append_assoc]

mutual

theorem extractText_eq_concat : ∀ n : HtmlNode,
    extractText n = concatStrings (textNodesPre n)
  | HtmlNode.textNode d => by simp [extractText, textNodesPre, concatStrings]
  | HtmlNode.elementNode t children => by
    simp only [extractText, textNodesPre]
    exact extractTextList_eq_concat children

theorem extractTextList_eq_concat : ∀ l : List HtmlNode,
    extractTextList l = concatStrings (textNodesPreList l)
  | [] => rfl
  | c :: cs => by
    simp only [extractTextList, textNodesPreList, concatStrings_append]
    rw [extractText_eq_concat c, extractTextList_eq_concat cs]

end

/-- C9: the extractor returns the concatenation of the parsed tree's
text-node content in depth-first pre-order with all tags removed, it
never raises (it is total), on a parse error it would return the input
unmodified, and on the concrete examples
extractTextFromHTML "<p>hi <b>there</b></p>" = "hi there" while the
malformed "<p>hi" yields "hi". -/
theorem C9_html_text_extraction :
    (extractTextFromHTML "<p>hi <b>there</b></p>" = "hi there") ∧
    (∀ (s : String) (doc : HtmlNode), htmlParse s = Except.ok doc →
      extractTextFromHTML s = concatStrings (textNodesPre doc)) ∧
    (∀ (s e : String), htmlParse s = Except.error e → extractTextFromHTML s = s) ∧
    (extractTextFromHTML "<p>hi" = "hi") := by
  refine ⟨by decide, ?_, ?_, by decide⟩
  · intro s doc h
    unfold extractTextFromHTML
    rw [h]
    exact extractText_eq_concat doc
  · intro s e h
    unfold extractTextFromHTML
    rw [h]

/-- Witness for C9: the pre-order concatenation equation applied at the
concrete markup example. -/
theorem C9_html_text_extraction_witness :
    extractTextFromHTML "<p>hi <b>there</b></p>" =
      concatStrings (textNodesPre (HtmlNode.elementNode "#document"
        (tokenizeHtml ("<p>hi <b>there</b></p>".data.length + 1)
          "<p>hi <b>there</b></p>".data))) :=
  C9_html_text_extraction.2.1 "<p>hi <b>there</b></p>" _ rfl

/-!
## Sanitizer lemmas
-/

theorem containsDoubleSpace_tail : ∀ (c : Char) (l : List Char),
    containsDoubleSpace (c :: l) = false → containsDoubleSpace l = false := by
  intro c l h
  cases l with
  | nil => rfl
  | cons b rest =>
    simp only [containsDoubleSpace, Bool.or_eq_false_iff] at h
    exact h.2

theorem dotSpacing_tail : ∀ (c : Char) (l : List Char),
    dotSpacing (c :: l) = true → dotSpacing l = true := by
  intro c l h
  cases l with
  | nil => rfl
  | cons b rest =>
    simp only [dotSpacing, Bool.and_eq_true] at h
    exact h.2

theorem dotAlwaysSpace_tail : ∀ (c : Char) (l : List Char),
    dotAlwaysSpace (c :: l) = true → dotAlwaysSpace l = true := by
  intro c l h
  cases l with
  | nil => rfl
  | cons b rest =>
    simp only [dotAlwaysSpace, Bool.and_eq_true] at h
    exact h.2

theorem noDotSpace_tail : ∀ (c : Char) (l : List Char),
    noDotSpace (c :: l) = true → noDotSpace l = true := by
  intro c l h
  cases l with
  | nil => rfl
  | cons b rest =>
    simp only [noDotSpace, Bool.and_eq_true] at h
    exact h.2

theorem collapseSpacesFuel_noDouble : ∀ (fuel : Nat) (l : List Char),
    l.length < fuel → containsDoubleSpace (collapseSpacesFuel fuel l) = false
  | 0, l, h => absurd h (Nat.not_lt_zero _)
  | fuel + 1, l, h => by
    unfold collapseSpacesFuel
    by_cases hc : containsDoubleSpace l = true
    · rw [if_pos hc]
      exact collapseSpacesFuel_noDouble fuel (collapseOnce l)
        (Nat.lt_of_lt_of_le (collapseOnce_length_lt l hc) (Nat.lt_succ_iff.mp h))
    · rw [if_neg (by simpa using hc)]
      simpa using hc

theorem collapseSpaces_noDouble (l : List Char) :
    containsDoubleSpace (collapseSpaces l) = false :=
  collapseSpacesFuel_noDouble (l.length + 1) l (Nat.lt_succ_self _)

theorem collapseSpaces_eq_self (l : List Char) (h : containsDoubleSpace l = false) :
    collapseSpaces l = l := by
  unfold collapseSpaces collapseSpacesFuel
  rw [if_neg (by simp [h])]

theorem fixDotSpaceSpace_eq_self : ∀ l : List Char,
    containsDoubleSpace l = false → fixDotSpaceSpace l = l
  | [], _ => rfl
  | [c], _ => rfl
  | [c, d], _ => rfl
  | a :: b :: c :: rest, h => by
    have htail : containsDoubleSpace (b :: c :: rest) = false :=
      containsDoubleSpace_tail a _ h
    have hbc : ¬(b = ' ' ∧ c = ' ') := by
      intro ⟨hb, hc⟩
      simp [containsDoubleSpace, hb, hc] at htail
    rw [fixDotSpaceSpace, if_neg (by intro ⟨_, hb, hc⟩; exact hbc ⟨hb, hc⟩)]
    rw [fixDotSpaceSpace_eq_self (b :: c :: rest) htail]

theorem removeDotSpace_spec : ∀ l : List Char, containsDoubleSpace l = false →
    containsDoubleSpace (removeDotSpace l) = false ∧
      noDotSpace (removeDotSpace l) = true ∧
      (removeDotSpace l).head? = l.head?
  | [], _ => by simp [removeDotSpace, containsDoubleSpace, noDotSpace]
  | [c], _ => by simp [removeDotSpace, containsDoubleSpace, noDotSpace]
  | a :: b :: rest, h => by
    have htail : containsDoubleSpace (b :: rest) = false := containsDoubleSpace_tail a _ h
    have hpair : ¬(a = ' ' ∧ b = ' ') := by
      intro hab
      simp [containsDoubleSpace, hab.1, hab.2] at h
    by_cases hg : a = '.' ∧ b = ' '
    · obtain ⟨ha, hb⟩ := hg
      subst ha
      subst hb
      have hrest : containsDoubleSpace rest = false := containsDoubleSpace_tail _ _ htail
      have IH := removeDotSpace_spec rest hrest
      have hred : removeDotSpace ('.' :: ' ' :: rest) = '.' :: removeDotSpace rest := by
        simp [removeDotSpace]
      rw [hred]
      refine ⟨?_, ?_, rfl⟩
      · cases hR : removeDotSpace rest with
        | nil => simp [containsDoubleSpace]
        | cons r0 R2 =>
          simp only [containsDoubleSpace, Bool.or_eq_false_iff]
          refine ⟨by simp, ?_⟩
          rw [← hR]
          exact IH.1
      · cases hR : removeDotSpace rest with
        | nil => simp [noDotSpace]
        | cons r0 R2 =>
          have hhead : (r0 :: R2).head? = rest.head? := by rw [← hR]; exact IH.2.2
          have hr0 : r0 ≠ ' ' := by
            cases rest with
            | nil => simp [removeDotSpace] at hR
            | cons x rest2 =>
              simp only [List.head?_cons, Option.some.injEq] at hhead
              have hx : ¬(x = ' ') := by
                intro hx
                simp [containsDoubleSpace, hx] at htail
              rw [hhead]
              exact hx
          simp only [noDotSpace, Bool.and_eq_true]
          refine ⟨by simp [hr0], ?_⟩
          rw [← hR]
          exact IH.2.1
    · have IH := removeDotSpace_spec (b :: rest) htail
      have hred : removeDotSpace (a :: b :: rest) = a :: removeDotSpace (b :: rest) := by
        simp [removeDotSpace, hg]
      rw [hred]
      obtain ⟨R2, hR⟩ : ∃ R2, removeDotSpace (b :: rest) = b :: R2 := by
        cases hRR : removeDotSpace (b :: rest) with
        | nil =>
          have h2 := IH.2.2
          rw [hRR] at h2
          simp at h2
        | cons r0 R3 =>
          have h2 := IH.2.2
          rw [hRR] at h2
          simp only [List.head?_cons, Option.some.injEq] at h2
          exact ⟨R3, by rw [h2]⟩
      rw [hR]
      refine ⟨?_, ?_, rfl⟩
      · simp only [containsDoubleSpace, Bool.or_eq_false_iff]
        constructor
        · by_cases ha : a = ' '
          · have hb : b ≠ ' ' := fun hb => hpair ⟨ha, hb⟩
            simp [ha, hb]
          · simp [ha]
        · rw [← hR]
          exact IH.1
      · simp only [noDotSpace, Bool.and_eq_true]
        constructor
        · by_cases ha : a = '.'
          · have hb : b ≠ ' ' := fun hb => hg ⟨ha, hb⟩
            simp [ha, hb]
          · simp [ha]
        · rw [← hR]
          exact IH.2.1

theorem expandDot_spec : ∀ l : List Char, noDotSpace l = true →
    containsDoubleSpace l = false →
    containsDoubleSpace (expandDot l) = false ∧
      dotAlwaysSpace (expandDot l) = true ∧
      (expandDot l).head? = l.head?
  | [], _, _ => by simp [expandDot, containsDoubleSpace, dotAlwaysSpace]
  | c :: rest, hnd, hcd => by
    have hndt : noDotSpace rest = true := noDotSpace_tail c rest hnd
    have hcdt : containsDoubleSpace rest = false := containsDoubleSpace_tail c rest hcd
    have IH := expandDot_spec rest hndt hcdt
    by_cases hc : c = '.'
    · subst hc
      have hred : expandDot ('.' :: rest) = '.' :: ' ' :: expandDot rest := by
        simp [expandDot]
      rw [hred]
      cases hE : expandDot rest with
      | nil => simp [containsDoubleSpace, dotAlwaysSpace]
      | cons e0 E2 =>
        have hhead : (e0 :: E2).head? = rest.head? := by rw [← hE]; exact IH.2.2
        have he0 : e0 ≠ ' ' := by
          cases rest with
          | nil => simp [expandDot] at hE
          | cons x rest2 =>
            simp only [List.head?_cons, Option.some.injEq] at hhead
            have hx : ¬(x = ' ') := by
              intro hx
              simp [noDotSpace, hx] at hnd
            rw [hhead]
            exact hx
        refine ⟨?_, ?_, rfl⟩
        · simp only [containsDoubleSpace, Bool.or_eq_false_iff]
          refine ⟨by simp, by simp [he0], ?_⟩
          rw [← hE]
          exact IH.1
        · simp only [dotAlwaysSpace, Bool.and_eq_true]
          refine ⟨by simp, by simp, ?_⟩
          rw [← hE]
          exact IH.2.1
    · have hred : expandDot (c :: rest) = c :: expandDot rest := by
        simp [expandDot, hc]
      rw [hred]
      cases hE : expandDot rest with
      | nil => simp [containsDoubleSpace, dotAlwaysSpace, hc]
      | cons e0 E2 =>
        have hhead : (e0 :: E2).head? = rest.head? := by rw [← hE]; exact IH.2.2
        have hpair : ¬(c = ' ' ∧ e0 = ' ') := by
          cases rest with
          | nil => simp [expandDot] at hE
          | cons x rest2 =>
            simp only [List.head?_cons, Option.some.injEq] at hhead
            intro hce
            rw [hhead] at hce
            simp [containsDoubleSpace, hce.1, hce.2] at hcd
        refine ⟨?_, ?_, rfl⟩
        · simp only [containsDoubleSpace, Bool.or_eq_false_iff]
          constructor
          · by_cases hcs : c = ' '
            · have he : e0 ≠ ' ' := fun he => hpair ⟨hcs, he⟩
              simp [hcs, he]
            · simp [hcs]
          · rw [← hE]
            exact IH.1
        · simp only [dotAlwaysSpace, Bool.and_eq_true]
          refine ⟨by simp [hc], ?_⟩
          rw [← hE]
          exact IH.2.1

theorem isGoSpace_space : isGoSpace ' ' = true := by decide

theorem dropWhile_idem (p : Char → Bool) : ∀ l : List Char,
    (l.dropWhile p).dropWhile p = l.dropWhile p
  | [] => rfl
  | c :: rest => by
    by_cases hc : p c
    · rw [List.dropWhile_cons_of_pos hc]
      exact dropWhile_idem p rest
    · rw [List.dropWhile_cons_of_neg hc, List.dropWhile_cons_of_neg hc]

theorem dropWhile_eq_self_of_head (p : Char → Bool) (l : List Char) (c : Char)
    (hh : l.head? = some c) (hp : p c = false) : l.dropWhile p = l := by
  cases l with
  | nil => rfl
  | cons x rest =>
    simp only [List.head?_cons, Option.some.injEq] at hh
    subst hh
    exact List.dropWhile_cons_of_neg (by simp [hp])

theorem head_dropWhile_false (p : Char → Bool) : ∀ (l : List Char) (c : Char),
    (l.dropWhile p).head? = some c → p c = false
  | [], c, h => by simp at h
  | x :: rest, c, h => by
    by_cases hx : p x
    · rw [List.dropWhile_cons_of_pos hx] at h
      exact head_dropWhile_false p rest c h
    · rw [List.dropWhile_cons_of_neg hx] at h
      simp only [List.head?_cons, Option.some.injEq] at h
      subst h
      simpa using hx

theorem trimRight_idem (l : List Char) : trimRight (trimRight l) = trimRight l := by
  unfold trimRight
  rw [List.reverse_reverse, dropWhile_idem]

theorem trimRight_append_space (l : List Char) : trimRight (l ++ [' ']) = trimRight l := by
  unfold trimRight
  rw [List.reverse_append]
  simp only [List.reverse_cons, List.reverse_nil, List.nil_append, List.singleton_append]
  rw [List.dropWhile_cons_of_pos (by simp [isGoSpace_space])]

theorem trimRight_trimLeft (w : List Char) (hw : trimRight w = w) :
    trimRight (trimLeft w) = trimLeft w := by
  unfold trimLeft
  cases hv : (w.dropWhile isGoSpace).reverse.head? with
  | none =>
    have hrevnil : (w.dropWhile isGoSpace).reverse = [] := by
      cases hvv : (w.dropWhile isGoSpace).reverse
      · rfl
      · rw [hvv] at hv; simp at hv
    have hnil : w.dropWhile isGoSpace = [] := by
      have h2 := congrArg List.reverse hrevnil
      simpa using h2
    rw [hnil]
    rfl
  | some c =>
    have hcw : w.reverse.head? = some c := by
      have hdecomp : w = w.takeWhile isGoSpace ++ w.dropWhile isGoSpace :=
        (List.takeWhile_append_dropWhile isGoSpace w).symm
      have hrev : w.reverse = (w.dropWhile isGoSpace).reverse ++
          (w.takeWhile isGoSpace).reverse := by
        conv_lhs => rw [hdecomp]
        rw [List.reverse_append]
      rw [hrev]
      cases hvv : (w.dropWhile isGoSpace).reverse with
      | nil => rw [hvv] at hv; simp at hv
      | cons x t =>
        rw [hvv] at hv
        simp only [List.head?_cons, Option.some.injEq] at hv
        simp [hv]
    have hwrev : w.reverse.dropWhile isGoSpace = w.reverse := by
      have : (w.reverse.dropWhile isGoSpace).reverse = w := hw
      have h2 : w.reverse.dropWhile isGoSpace = w.reverse := by
        have h3 := congrArg List.reverse this
        rwa [List.reverse_reverse] at h3
      exact h2
    have hpc : isGoSpace c = false := by
      cases hr : w.reverse with
      | nil =>
        rw [hr] at hcw
        simp at hcw
      | cons x t =>
        rw [hr] at hcw hwrev
        simp only [List.head?_cons, Option.some.injEq] at hcw
        subst hcw
        by_cases hx : isGoSpace x
        · rw [List.dropWhile_cons_of_pos hx] at hwrev
          have := congrArg List.length hwrev
          have hle : (t.dropWhile isGoSpace).length ≤ t.length :=
            (List.dropWhile_sublist isGoSpace).length_le
          simp at this
          omega
        · simpa using hx
    unfold trimRight
    rw [dropWhile_eq_self_of_head isGoSpace _ c hv hpc]
    rw [List.reverse_reverse]

theorem trimSpace_idem (l : List Char) : trimSpace (trimSpace l) = trimSpace l := by
  unfold trimSpace
  have h1 : trimRight (trimLeft (trimRight l)) = trimLeft (trimRight l) :=
    trimRight_trimLeft (trimRight l) (trimRight_idem l)
  rw [h1]
  unfold trimLeft
  rw [dropWhile_idem]

theorem trimSpace_append_space (l : List Char) :
    trimSpace (l ++ [' ']) = trimSpace l := by
  unfold trimSpace
  rw [trimRight_append_space]

theorem containsDouble_append_left : ∀ l t : List Char,
    containsDoubleSpace (l ++ t) = false → containsDoubleSpace l = false
  | [], _, _ => rfl
  | [c], _, _ => rfl
  | a :: b :: rest, t, h => by
    simp only [List.cons_append, containsDoubleSpace, Bool.or_eq_false_iff] at h ⊢
    exact ⟨h.1, containsDouble_append_left (b :: rest) t (by simpa using h.2)⟩

theorem containsDouble_drop : ∀ t l : List Char,
    containsDoubleSpace (t ++ l) = false → containsDoubleSpace l = false
  | [], _, h => h
  | c :: t2, l, h => by
    have := containsDoubleSpace_tail c (t2 ++ l) (by simpa using h)
    exact containsDouble_drop t2 l this

theorem dotSpacing_from_always_append : ∀ r s : List Char,
    dotAlwaysSpace (r ++ s) = true → dotSpacing r = true
  | [], _, _ => rfl
  | [c], _, _ => rfl
  | a :: b :: rest, s, h => by
    simp only [List.cons_append, dotAlwaysSpace, Bool.and_eq_true] at h
    simp only [dotSpacing, Bool.and_eq_true]
    exact ⟨h.1, dotSpacing_from_always_append (b :: rest) s (by simpa using h.2)⟩

theorem dotSpacing_drop : ∀ t l : List Char,
    dotSpacing (t ++ l) = true → dotSpacing l = true
  | [], _, h => h
  | c :: t2, l, h => by
    have := dotSpacing_tail c (t2 ++ l) (by simpa using h)
    exact dotSpacing_drop t2 l this

theorem trimRight_decomp (z : List Char) :
    z = trimRight z ++ (z.reverse.takeWhile isGoSpace).reverse := by
  unfold trimRight
  conv_lhs => rw [← List.reverse_reverse z]
  conv_lhs => rw [← List.takeWhile_append_dropWhile isGoSpace z.reverse]
  rw [List.reverse_append]

theorem trim_preserves (z : List Char) (ha : dotAlwaysSpace z = true)
    (hc : containsDoubleSpace z = false) :
    dotSpacing (trimSpace z) = true ∧ containsDoubleSpace (trimSpace z) = false := by
  have hdec := trimRight_decomp z
  have hw1 : dotSpacing (trimRight z) = true :=
    dotSpacing_from_always_append _ _ (by rw [← hdec]; exact ha)
  have hw2 : containsDoubleSpace (trimRight z) = false :=
    containsDouble_append_left _ _ (by rw [← hdec]; exact hc)
  have hdec2 : trimRight z =
      (trimRight z).takeWhile isGoSpace ++ trimLeft (trimRight z) :=
    (List.takeWhile_append_dropWhile isGoSpace (trimRight z)).symm
  unfold trimSpace
  constructor
  · exact dotSpacing_drop ((trimRight z).takeWhile isGoSpace) (trimLeft (trimRight z))
      (by rw [← hdec2]; exact hw1)
  · exact containsDouble_drop ((trimRight z).takeWhile isGoSpace) (trimLeft (trimRight z))
      (by rw [← hdec2]; exact hw2)

theorem cleanChars_spacing (l : List Char) :
    containsDoubleSpace (cleanChars l) = false ∧ dotSpacing (cleanChars l) = true := by
  unfold cleanChars
  have h0 : containsDoubleSpace
      (collapseSpaces (l.filter (fun c => !isSymbolEmoji c))) = false :=
    collapseSpaces_noDouble _
  rw [fixDotSpaceSpace_eq_self _ h0]
  have h2 := removeDotSpace_spec _ h0
  have h3 := expandDot_spec _ h2.2.1 h2.1
  have h4 := trim_preserves _ h3.2.1 h3.1
  exact ⟨h4.2, h4.1⟩

set_option maxRecDepth 16384 in
/-- C3 counterexample: on the spec's own example the sanitizer leaves
the space before the period in place: clean "a  .  b" is "a . b",
which contains the pair " ." — the claim's "no space precedes any dot"
fails (the code only rewrites spacing after periods, never before). -/
theorem C3_counterexample :
    cleanResponse "a  .  b" = "a . b" ∧
      noSpaceBeforeDot (cleanResponse "a  .  b").data = false := by
  constructor
  · decide
  · decide

set_option maxRecDepth 16384 in
/-- C3 (amended): the sanitizer's output has no run of two or more
spaces, and every '.' not at the end of the text is followed by exactly
one space; spaces before periods are not removed — clean "a  .  b"
is "a . b", single-spaced but with the space before the period kept. -/
theorem C3_sanitizer_spacing :
    (∀ s : String, containsDoubleSpace (cleanResponse s).data = false ∧
      dotSpacing (cleanResponse s).data = true) ∧
    cleanResponse "a  .  b" = "a . b" :=
  ⟨fun s => cleanChars_spacing s.data, by decide⟩

set_option maxRecDepth 4096 in
theorem isSymbolEmoji_space : isSymbolEmoji ' ' = false := by decide

set_option maxRecDepth 4096 in
theorem isSymbolEmoji_dot : isSymbolEmoji '.' = false := by decide

theorem mem_collapseOnce : ∀ (l : List Char) (c : Char),
    c ∈ collapseOnce l → c ∈ l ∨ c = ' '
  | [], c, h => by simp [collapseOnce] at h
  | [d], c, h => by
    simp only [collapseOnce] at h
    exact Or.inl h
  | a :: b :: rest, c, h => by
    by_cases hg : a = ' ' ∧ b = ' '
    · have hred : collapseOnce (a :: b :: rest) = ' ' :: collapseOnce rest := by
        simp only [collapseOnce]
        rw [if_pos hg]
      rw [hred] at h
      rcases List.mem_cons.mp h with h1 | h2
      · exact Or.inr h1
      · rcases mem_collapseOnce rest c h2 with h3 | h3
        · exact Or.inl (List.mem_cons_of_mem a (List.mem_cons_of_mem b h3))
        · exact Or.inr h3
    · have hred : collapseOnce (a :: b :: rest) = a :: collapseOnce (b :: rest) := by
        simp only [collapseOnce]
        rw [if_neg hg]
      rw [hred] at h
      rcases List.mem_cons.mp h with h1 | h2
      · exact Or.inl (by rw [h1]; exact List.mem_cons_self a _)
      · rcases mem_collapseOnce (b :: rest) c h2 with h3 | h3
        · exact Or.inl (List.mem_cons_of_mem a h3)
        · exact Or.inr h3

theorem mem_collapseSpacesFuel : ∀ (fuel : Nat) (l : List Char) (c : Char),
    c ∈ collapseSpacesFuel fuel l → c ∈ l ∨ c = ' '
  | 0, l, c, h => Or.inl h
  | fuel + 1, l, c, h => by
    unfold collapseSpacesFuel at h
    by_cases hc : containsDoubleSpace l = true
    · rw [if_pos hc] at h
      rcases mem_collapseSpacesFuel fuel (collapseOnce l) c h with h1 | h1
      · exact mem_collapseOnce l c h1
      · exact Or.inr h1
    · rw [if_neg hc] at h
      exact Or.inl h

theorem mem_removeDotSpace : ∀ (l : List Char) (c : Char),
    c ∈ removeDotSpace l → c ∈ l
  | [], c, h => h
  | [d], c, h => h
  | a :: b :: rest, c, h => by
    by_cases hg : a = '.' ∧ b = ' '
    · have hred : removeDotSpace (a :: b :: rest) = '.' :: removeDotSpace rest := by
        simp only [removeDotSpace]
        rw [if_pos hg]
      rw [hred] at h
      rcases List.mem_cons.mp h with h1 | h2
      · rw [h1, ← hg.1]
        exact List.mem_cons_self a _
      · exact List.mem_cons_of_mem a (List.mem_cons_of_mem b (mem_removeDotSpace rest c h2))
    · have hred : removeDotSpace (a :: b :: rest) = a :: removeDotSpace (b :: rest) := by
        simp only [removeDotSpace]
        rw [if_neg hg]
      rw [hred] at h
      rcases List.mem_cons.mp h with h1 | h2
      · rw [h1]
        exact List.mem_cons_self a _
      · exact List.mem_cons_of_mem a (mem_removeDotSpace (b :: rest) c h2)

theorem mem_expandDot : ∀ (l : List Char) (c : Char),
    c ∈ expandDot l → c ∈ l ∨ c = ' '
  | [], c, h => by simp [expandDot] at h
  | d :: rest, c, h => by
    by_cases hd : d = '.'
    · have hred : expandDot (d :: rest) = '.' :: ' ' :: expandDot rest := by
        simp [expandDot, hd]
      rw [hred] at h
      rcases List.mem_cons.mp h with h1 | h2
      · exact Or.inl (by rw [h1, ← hd]; exact List.mem_cons_self d _)
      · rcases List.mem_cons.mp h2 with h3 | h4
        · exact Or.inr h3
        · rcases mem_expandDot rest c h4 with h5 | h5
          · exact Or.inl (List.mem_cons_of_mem d h5)
          · exact Or.inr h5
    · have hred : expandDot (d :: rest) = d :: expandDot rest := by
        simp [expandDot, hd]
      rw [hred] at h
      rcases List.mem_cons.mp h with h1 | h2
      · exact Or.inl (by rw [h1]; exact List.mem_cons_self d _)
      · rcases mem_expandDot rest c h2 with h3 | h3
        · exact Or.inl (List.mem_cons_of_mem d h3)
        · exact Or.inr h3

theorem mem_trimSpace (l : List Char) (c : Char) (h : c ∈ trimSpace l) : c ∈ l := by
  unfold trimSpace trimLeft trimRight at h
  have h1 := (List.dropWhile_sublist isGoSpace).subset h
  rw [List.mem_reverse] at h1
  have h2 := (List.dropWhile_sublist isGoSpace).subset h1
  rwa [List.mem_reverse] at h2

theorem cleanChars_mem (l : List Char) (c : Char) (h : c ∈ cleanChars l) :
    isSymbolEmoji c = false := by
  unfold cleanChars at h
  have h1 := mem_trimSpace _ c h
  rcases mem_expandDot _ c h1 with h2 | h2
  · have h3 := mem_removeDotSpace _ c h2
    rw [fixDotSpaceSpace_eq_self _ (collapseSpaces_noDouble _)] at h3
    unfold collapseSpaces at h3
    rcases mem_collapseSpacesFuel _ _ c h3 with h4 | h4
    · have := (List.mem_filter.mp h4).2
      simpa using this
    · rw [h4]
      exact isSymbolEmoji_space
  · rw [h2]
    exact isSymbolEmoji_space

theorem expand_remove : ∀ y : List Char, dotSpacing y = true →
    containsDoubleSpace y = false →
    expandDot (removeDotSpace y) = y ∨ expandDot (removeDotSpace y) = y ++ [' ']
  | [], _, _ => Or.inl rfl
  | [c], _, _ => by
    by_cases hc : c = '.'
    · subst hc
      right
      simp [removeDotSpace, expandDot]
    · left
      simp [removeDotSpace, expandDot, hc]
  | a :: b :: rest, hd, hc => by
    have hdt : dotSpacing (b :: rest) = true := by
      simp only [dotSpacing, Bool.and_eq_true] at hd
      exact hd.2
    have hct : containsDoubleSpace (b :: rest) = false := containsDoubleSpace_tail a _ hc
    by_cases hg : a = '.' ∧ b = ' '
    · obtain ⟨ha, hb⟩ := hg
      subst ha
      subst hb
      have hdr : dotSpacing rest = true := dotSpacing_tail _ _ hdt
      have hcr : containsDoubleSpace rest = false := containsDoubleSpace_tail _ _ hct
      have hred : removeDotSpace ('.' :: ' ' :: rest) = '.' :: removeDotSpace rest := by
        simp [removeDotSpace]
      have hexp : expandDot ('.' :: removeDotSpace rest) =
          '.' :: ' ' :: expandDot (removeDotSpace rest) := by
        simp [expandDot]
      rw [hred, hexp]
      rcases expand_remove rest hdr hcr with h | h
      · left
        rw [h]
      · right
        rw [h]
        rfl
    · have ha : a ≠ '.' := by
        intro ha
        subst ha
        have h1 : (!decide (('.' : Char) = '.') || decide (b = ' ')) = true := by
          simp only [dotSpacing, Bool.and_eq_true] at hd
          exact hd.1
        simp at h1
        exact hg ⟨rfl, h1⟩
      have hred : removeDotSpace (a :: b :: rest) = a :: removeDotSpace (b :: rest) := by
        simp only [removeDotSpace]
        rw [if_neg hg]
      have hexp : expandDot (a :: removeDotSpace (b :: rest)) =
          a :: expandDot (removeDotSpace (b :: rest)) := by
        simp [expandDot, ha]
      rw [hred, hexp]
      rcases expand_remove (b :: rest) hdt hct with h | h
      · left
        rw [h]
      · right
        rw [h]
        rfl

theorem cleanChars_idem (l : List Char) : cleanChars (cleanChars l) = cleanChars l := by
  have hdef : ∀ m : List Char, cleanChars m = trimSpace (expandDot (removeDotSpace
      (fixDotSpaceSpace (collapseSpaces (m.filter (fun c => !isSymbolEmoji c)))))) :=
    fun m => rfl
  have hspec := cleanChars_spacing l
  have hfil : (cleanChars l).filter (fun c => !isSymbolEmoji c) = cleanChars l :=
    List.filter_eq_self.mpr (fun a ha => by simp [cleanChars_mem l a ha])
  have hstage : cleanChars (cleanChars l) =
      trimSpace (expandDot (removeDotSpace (cleanChars l))) := by
    rw [hdef (cleanChars l), hfil, collapseSpaces_eq_self _ hspec.1,
      fixDotSpaceSpace_eq_self _ hspec.1]
  rw [hstage]
  rcases expand_remove (cleanChars l) hspec.2 hspec.1 with h | h
  · rw [h, hdef l]
    exact trimSpace_idem _
  · rw [h, trimSpace_append_space, hdef l]
    exact trimSpace_idem _

/-- C4: the sanitizer is idempotent — cleaning an already-cleaned
string changes nothing: clean (clean s) = clean s for every string. -/
theorem C4_clean_idempotent (s : String) :
    cleanResponse (cleanResponse s) = cleanResponse s :=
  congrArg String.mk (cleanChars_idem s.data)
